import Mathlib

/-
  Verification of the procedure-document model of `engmanager_mcp`
  (src/engmanager_mcp/utils/parser.py, class `ProcedureParser`).

  Strings are modelled as `List Char`.  Python text operations used by the
  parser (`str.split('\n')`, `str.strip()`, `str.lower()`, `str.replace`,
  `in`-substring, `', '.join`, `sorted`) are embedded below; regular
  expressions are compiled by hand into character-list scanners whose
  behaviour on the parser's inputs matches Python's `re` semantics
  (greedy matching with backtracking analysed per pattern, `re.match`
  anchored at the start, `.` never matching a newline).  Whitespace and
  case mapping are the ASCII fragments of Python's Unicode-aware versions;
  every input appearing in a theorem below is ASCII.
-/

deriving instance DecidableEq for Except

namespace EngManager

abbrev Str := List Char

/-- View a Lean string literal as the character list it denotes. -/
def str (s : String) : Str := s.data

/-- Python's `\s` class and `str.strip()` whitespace, ASCII fragment. -/
def pyIsSpace (c : Char) : Bool :=
  c == ' ' || c == '\t' || c == '\n' || c == '\r' || c == '\x0b' || c == '\x0c'

/-- Python `text.split('\n')`: the list of newline-separated lines
(`"".split('\n') == ['']`, a trailing newline yields a final empty line). -/
def splitLines : Str → List Str
  | [] => [[]]
  | c :: rest =>
    if c = '\n' then [] :: splitLines rest
    else
      match splitLines rest with
      | [] => [[c]]
      | l :: ls => (c :: l) :: ls

/-- Python `'\n'.join(lines)`. -/
def joinLines : List Str → Str
  | [] => []
  | [l] => l
  | l :: ls => l ++ '\n' :: joinLines ls

/-- Python `s.strip()`: remove leading and trailing whitespace. -/
def strip (s : Str) : Str :=
  ((s.dropWhile pyIsSpace).reverse.dropWhile pyIsSpace).reverse

/-- Python `s.lower()`, ASCII fragment (`Char.toLower` maps `A`-`Z` only). -/
def lowerStr (s : Str) : Str := s.map Char.toLower

/-- Python substring test `pat in s`. -/
def isSubstr (pat : Str) : Str → Bool
  | [] => pat.isEmpty
  | c :: rest => pat.isPrefixOf (c :: rest) || isSubstr pat rest

/-- Python `int()` on a nonempty string of ASCII digits. -/
def natOfDigits (ds : Str) : Nat :=
  ds.foldl (fun a c => a * 10 + (c.toNat - '0'.toNat)) 0

/-- Python `str()`/f-string rendering of a nonnegative integer. -/
def natToStr (n : Nat) : Str := Nat.toDigits 10 n

/-- The class `ProcedureParser`: raw content plus the variable mapping.
Python's `dict` is embedded as an association list in insertion order
(its keys are distinct).  The `str(var_value)` coercion applied by
`substitute_variables` is embedded by storing values already as strings. -/
structure ProcedureParser where
  content : Str
  vars : List (Str × Str)

/-! ### Variable substitution (`substitute_variables`) -/

/-- First character of a placeholder name: the class `[A-Z_]`. -/
def phStart (c : Char) : Bool := ('A' ≤ c && c ≤ 'Z') || c == '_'

/-- Subsequent characters of a placeholder name: the class `[A-Z0-9_]`. -/
def phChar (c : Char) : Bool := ('A' ≤ c && c ≤ 'Z') || c.isDigit || c == '_'

/-- A name is matched by `[A-Z_][A-Z0-9_]*`. -/
def phName : Str → Bool
  | [] => false
  | c :: cs => phStart c && cs.all phChar

/-- Attempt to match `[A-Z_][A-Z0-9_]*\}` at the start of `s` (the part of
the pattern `\{([A-Z_][A-Z0-9_]*)\}` after the opening brace).  Greedy
matching cannot backtrack usefully here: the characters the star could give
back are name characters, never `'}'`.  Returns the captured name and the
text after the closing brace. -/
def placeholderAt (s : Str) : Option (Str × Str) :=
  match s with
  | c :: rest =>
    if phStart c then
      let run := rest.takeWhile phChar
      match rest.drop run.length with
      | '}' :: tail => some (c :: run, tail)
      | _ => none
    else none
  | [] => none

/-- Python `re.findall(r'\{([A-Z_][A-Z0-9_]*)\}', text)`: captured names of
all non-overlapping matches, left to right.  Scanning continues inside a
match instead of jumping past it, which yields the same list because a
matched region contains no further `'{'`. -/
def findPlaceholders : Str → List Str
  | [] => []
  | c :: rest =>
    match placeholderAt rest with
    | some (name, _) => if c = '{' then name :: findPlaceholders rest else findPlaceholders rest
    | none => findPlaceholders rest

/-- Membership of `n` in `set(variables.keys())`. -/
def isKey (vars : List (Str × Str)) (n : Str) : Bool :=
  vars.any (fun kv => kv.1 == n)

/-- The braced form `"{" + name + "}"` replaced by `str.replace`. -/
def braced (name : Str) : Str := '{' :: name ++ ['}']

/-- Scanner for Python `s.replace(old, new)` with nonempty `old`: at each
position not inside an already-replaced occurrence (`skip = 0`), replace a
match of `old` and resume after it, otherwise copy one character.  Matches
the original string left to right, non-overlapping, and never rescans
replacement text, exactly as `str.replace` does. -/
def replaceAux (old new : Str) : Str → Nat → Str
  | [], _ => []
  | c :: rest, skip =>
    match skip with
    | k + 1 => replaceAux old new rest k
    | 0 =>
      if old.isPrefixOf (c :: rest) then new ++ replaceAux old new rest (old.length - 1)
      else c :: replaceAux old new rest 0

/-- Python `s.replace(old, new)` (call sites always pass a nonempty `old`,
namely a braced variable name). -/
def replaceAll (s old new : Str) : Str := replaceAux old new s 0

/-- The lexicographic order used by Python `sorted` on strings (code-point
comparison, a proper prefix sorts first): Mathlib's linear order on
`List Char`. -/
def sortStrs (l : List Str) : List Str := List.insertionSort (· ≤ ·) l

/-- Python `', '.join(parts)`. -/
def commaJoin : List Str → Str
  | [] => []
  | [x] => x
  | x :: xs => x ++ ',' :: ' ' :: commaJoin xs

/-- Method `ProcedureParser.substitute_variables`: find the set of distinct
placeholder names, fail listing the sorted missing ones if any is not a
key, otherwise literally replace each `{name}` by its value, iterating the
mapping in insertion order. -/
def substitute_variables (p : ProcedureParser) : Except Str Str :=
  let missing := (findPlaceholders p.content).dedup.filter
    (fun n => !(isKey p.vars n))
  if missing = [] then
    Except.ok (p.vars.foldl
      (fun acc kv => replaceAll acc (braced kv.1) kv.2) p.content)
  else
    Except.error (str "Missing required template variables: "
      ++ commaJoin (sortStrs missing))

/-! ### Section extraction (`extract_sections`) -/

/-- The match `re.match(r'^(#{1,6})\s+(.+)$', line)` for a newline-free `line`,
returning `group(2).strip()` on success.  The greedy hash run must be the
whole leading run of `'#'` (1 to 6 of them, more match nothing), then
`\s+(.+)$` requires a whitespace character and at least one further
character; backtracking inside the whitespace run does not change the
stripped capture. -/
def headMatch (line : Str) : Option Str :=
  let hashes := line.takeWhile (fun c => c == '#')
  let rest := line.drop hashes.length
  match rest with
  | c :: _ :: _ =>
    if 1 ≤ hashes.length && hashes.length ≤ 6 && pyIsSpace c then
      some (strip rest)
    else none
  | _ => none

/-- Python `dict` assignment `d[k] = v`: update in place if the key exists,
else append. -/
def dictInsert (k v : Str) (d : List (Str × Str)) : List (Str × Str) :=
  if d.any (fun kv => kv.1 = k) then
    d.map (fun kv => if kv.1 = k then (k, v) else kv)
  else d ++ [(k, v)]

/-- The loop of `extract_sections`.  `cur` holds `current_section` with
`[]` standing for both Python's `None` and the empty title, which the
source code treats alike (`if current_section:` is a truthiness test). -/
def sectionsAux : List Str → Str → List Str → List (Str × Str) → List (Str × Str)
  | [], cur, acc, secs =>
    if cur = [] then secs else dictInsert cur (strip (joinLines acc)) secs
  | line :: rest, cur, acc, secs =>
    match headMatch line with
    | some t =>
      sectionsAux rest t []
        (if cur = [] then secs else dictInsert cur (strip (joinLines acc)) secs)
    | none =>
      sectionsAux rest cur (if cur = [] then acc else acc ++ [line]) secs

/-- Method `ProcedureParser.extract_sections`. -/
def extract_sections (p : ProcedureParser) : List (Str × Str) :=
  sectionsAux (splitLines p.content) [] [] []

/-- Method `ProcedureParser.get_section`: `sections.get(title)`. -/
def get_section (p : ProcedureParser) (title : Str) : Option Str :=
  ((extract_sections p).find? (fun kv => kv.1 == title)).map (fun kv => kv.2)

/-- Method `ProcedureParser.find_section_by_keyword`: keep the sections whose
title or content contains the lowered keyword, in mapping order. -/
def find_section_by_keyword (p : ProcedureParser) (keyword : Str) : List (Str × Str) :=
  let kl := lowerStr keyword
  (extract_sections p).filter
    (fun kv => isSubstr kl (lowerStr kv.1) || isSubstr kl (lowerStr kv.2))

/-! ### Step extraction (`extract_steps`) and step queries -/

/-- The match `re.match(r'^(\d+)\.\s+(.+)$', title)`, returning
`(int(group(1)), group(2).strip())` on success: a maximal nonempty run of
digits, a literal dot, a whitespace character and at least one further
character. -/
def stepMatch (title : Str) : Option (Nat × Str) :=
  let digits := title.takeWhile Char.isDigit
  match digits, title.drop digits.length with
  | _ :: _, '.' :: c :: d :: r =>
    if pyIsSpace c then some (natOfDigits digits, strip (c :: d :: r)) else none
  | _, _ => none

/-- The comparison `key=lambda x: x[0]` used by `steps.sort`. -/
def stepLe (a b : Nat × Str × Str) : Prop := a.1 ≤ b.1

instance : DecidableRel stepLe := fun a b => Nat.decLe a.1 b.1

instance : IsTotal (Nat × Str × Str) stepLe := ⟨fun a b => Nat.le_total a.1 b.1⟩

instance : IsTrans (Nat × Str × Str) stepLe := ⟨fun _ _ _ => Nat.le_trans⟩

/-- The unsorted step list: sections whose title parses as `N. Title`,
in section-mapping iteration order. -/
def sectionSteps (p : ProcedureParser) : List (Nat × Str × Str) :=
  (extract_sections p).filterMap
    (fun kv => (stepMatch kv.1).map (fun nt => (nt.1, nt.2, kv.2)))

/-- Method `ProcedureParser.extract_steps`: the step list sorted ascending by
number.  Python's `list.sort` is a stable sort; insertion sort on the same
key is stable too, hence produces the identical list. -/
def extract_steps (p : ProcedureParser) : List (Nat × Str × Str) :=
  List.insertionSort stepLe (sectionSteps p)

/-- Method `ProcedureParser.get_step`: first step numbered exactly `n`. -/
def get_step (p : ProcedureParser) (n : Int) : Option (Str × Str) :=
  ((extract_steps p).find? (fun s => (s.1 : Int) == n)).map (fun s => (s.2.1, s.2.2))

/-- Method `ProcedureParser.get_next_step`: first step numbered exactly
`current_step + 1`. -/
def get_next_step (p : ProcedureParser) (current_step : Int) : Option (Nat × Str × Str) :=
  (extract_steps p).find? (fun s => (s.1 : Int) == current_step + 1)

/-- Method `ProcedureParser.get_all_steps_summary`. -/
def get_all_steps_summary (p : ProcedureParser) : Str :=
  let steps := extract_steps p
  if steps.isEmpty then str "No numbered steps found in procedure."
  else joinLines (str "# Workflow Steps\n"
    :: steps.map (fun s => natToStr s.1 ++ '.' :: ' ' :: s.2.1))

/-! ### Instrumented views used to state the claims

`rawAux` replays the very loop of `extract_sections` but records every
flushed section in document order as (title, raw body lines), instead of
collapsing them into a dict and joining/stripping the lines.  `dictFold`
is the dict collapse itself; the lemma `sectionsAux_eq_dictFold` below
proves that the source loop is exactly `dictFold` after `rawAux`. -/
def rawAux : List Str → Str → List Str → List (Str × List Str)
  | [], cur, acc => if cur = [] then [] else [(cur, acc)]
  | line :: rest, cur, acc =>
    match headMatch line with
    | some t => (if cur = [] then [] else [(cur, acc)]) ++ rawAux rest t []
    | none => rawAux rest cur (if cur = [] then acc else acc ++ [line])

/-- The sections of the document in document order, with duplicates kept
and each body left as its raw list of lines. -/
def rawSections (p : ProcedureParser) : List (Str × List Str) :=
  rawAux (splitLines p.content) [] []

/-- Join and strip a raw section's body, as the flush in the source does. -/
def stripSec (q : Str × List Str) : Str × Str := (q.1, strip (joinLines q.2))

/-- Fold a stream of (title, body) assignments into a Python dict. -/
def dictFold (d : List (Str × Str)) (xs : List (Str × Str)) : List (Str × Str) :=
  xs.foldl (fun d kv => dictInsert kv.1 kv.2 d) d

/-- The value associated with the LAST pair carrying key `t`, if any. -/
def lastAssoc (xs : List (Str × Str)) (t : Str) : Option Str :=
  (xs.reverse.find? (fun kv => kv.1 == t)).map (fun kv => kv.2)

/-- Modelled from the claim's words: "the original text minus the content
before the first heading and minus the heading lines themselves", as a
list of lines. -/
def specRemainder (text : Str) : List Str :=
  ((splitLines text).dropWhile (fun l => (headMatch l).isNone)).filter
    (fun l => (headMatch l).isNone)

end EngManager

namespace EngManager

/-! ## Claims -/

/-- C10: the extraction and lookup operations are independent of the
variable mapping: on the same content and any two variable mappings,
`extract_sections`, `extract_steps`, `get_section`, `get_step`,
`get_next_step`, `find_section_by_keyword` and `get_all_steps_summary`
return identical results; only `substitute_variables` reads the mapping. -/
theorem extraction_independent_of_variables (c : Str) (v₁ v₂ : List (Str × Str)) :
    extract_sections ⟨c, v₁⟩ = extract_sections ⟨c, v₂⟩
    ∧ extract_steps ⟨c, v₁⟩ = extract_steps ⟨c, v₂⟩
    ∧ (∀ t, get_section ⟨c, v₁⟩ t = get_section ⟨c, v₂⟩ t)
    ∧ (∀ n, get_step ⟨c, v₁⟩ n = get_step ⟨c, v₂⟩ n)
    ∧ (∀ k, get_next_step ⟨c, v₁⟩ k = get_next_step ⟨c, v₂⟩ k)
    ∧ (∀ kw, find_section_by_keyword ⟨c, v₁⟩ kw = find_section_by_keyword ⟨c, v₂⟩ kw)
    ∧ get_all_steps_summary ⟨c, v₁⟩ = get_all_steps_summary ⟨c, v₂⟩ :=
  ⟨rfl, rfl, fun _ => rfl, fun _ => rfl, fun _ => rfl, fun _ => rfl, rfl⟩

/-- C6: `get_next_step k` is the linear scan for the first step numbered
exactly `k + 1`, and is `none` whenever no step has number `k + 1` — even
when steps with larger numbers exist (a gap terminates traversal). -/
theorem get_next_step_exact (p : ProcedureParser) (k : Int) :
    get_next_step p k = (extract_steps p).find? (fun s => (s.1 : Int) == k + 1)
    ∧ ((∀ s ∈ extract_steps p, (s.1 : Int) ≠ k + 1) → get_next_step p k = none) := by
  refine ⟨rfl, fun h => ?_⟩
  rw [get_next_step, List.find?_eq_none]
  intro s hs
  simpa using h s hs

/-- C6 witness: with steps numbered 1 and 3, `get_next_step 1` is `none`
although step 3 exists. -/
theorem get_next_step_exact_witness :
    (∀ s ∈ extract_steps ⟨str "# 1. A\nx\n# 3. B\ny", []⟩, (s.1 : Int) ≠ (1 : Int) + 1)
    ∧ get_next_step ⟨str "# 1. A\nx\n# 3. B\ny", []⟩ 1 = none
    ∧ (3, str "B", str "y") ∈ extract_steps ⟨str "# 1. A\nx\n# 3. B\ny", []⟩ :=
  ⟨by decide, (get_next_step_exact ⟨str "# 1. A\nx\n# 3. B\ny", []⟩ 1).2 (by decide), by decide⟩

/-- C9: `find_section_by_keyword` returns exactly the sections whose title
or body contains the lowered keyword as a substring, in mapping order, and
two keywords with the same lowering return the same matches. -/
theorem find_section_by_keyword_spec (p : ProcedureParser) (kw : Str) :
    find_section_by_keyword p kw = (extract_sections p).filter
      (fun kv => isSubstr (lowerStr kw) (lowerStr kv.1) || isSubstr (lowerStr kw) (lowerStr kv.2))
    ∧ (∀ kw', lowerStr kw' = lowerStr kw →
        find_section_by_keyword p kw' = find_section_by_keyword p kw) := by
  refine ⟨rfl, fun kw' h => ?_⟩
  rw [find_section_by_keyword, find_section_by_keyword, h]

/-- C9 witness: searching "gate" and "GATE" over a document with a section
titled "Quality Gates" whose body mentions "gate checks" both return that
section. -/
theorem find_section_by_keyword_spec_witness :
    find_section_by_keyword ⟨str "# Quality Gates\ngate checks", []⟩ (str "GATE")
      = find_section_by_keyword ⟨str "# Quality Gates\ngate checks", []⟩ (str "gate")
    ∧ find_section_by_keyword ⟨str "# Quality Gates\ngate checks", []⟩ (str "gate")
      = [(str "Quality Gates", str "gate checks")] :=
  ⟨(find_section_by_keyword_spec ⟨str "# Quality Gates\ngate checks", []⟩ (str "gate")).2
      (str "GATE") (by decide), by decide⟩

end EngManager

namespace EngManager

/-! ### Lemmas about placeholder scanning and replacement -/

theorem placeholderAt_phName {s name r : Str} (h : placeholderAt s = some (name, r)) :
    phName name = true := by
  cases s with
  | nil => simp [placeholderAt] at h
  | cons c rest =>
    simp only [placeholderAt] at h
    by_cases hc : phStart c = true
    · rw [if_pos hc] at h
      cases hdrop : rest.drop (rest.takeWhile phChar).length with
      | nil => rw [hdrop] at h; simp at h
      | cons d tail =>
        rw [hdrop] at h
        by_cases hd : d = '}'
        · subst hd
          simp only [Option.some.injEq, Prod.mk.injEq] at h
          obtain ⟨h1, -⟩ := h
          subst h1
          simp only [phName, hc, Bool.true_and, List.all_eq_true]
          exact fun x hx => List.mem_takeWhile_imp hx
        · have : (match d :: tail with
              | '}' :: tail => some (c :: rest.takeWhile phChar, tail)
              | _ => none) = none := by
            cases d; simp_all
          rw [this] at h; exact absurd h (by simp)
    · rw [if_neg hc] at h; simp at h

theorem findPlaceholders_phName (s : Str) : ∀ n ∈ findPlaceholders s, phName n = true := by
  induction s with
  | nil => intro n hn; simp [findPlaceholders] at hn
  | cons c rest ih =>
    intro n hn
    simp only [findPlaceholders] at hn
    cases hp : placeholderAt rest with
    | none => rw [hp] at hn; exact ih n hn
    | some nr =>
      obtain ⟨na, nb⟩ := nr
      rw [hp] at hn
      simp only at hn
      by_cases hc : c = '{'
      · rw [if_pos hc] at hn
        rcases List.mem_cons.mp hn with h | h
        · subst h; exact placeholderAt_phName (r := nb) hp
        · exact ih n h
      · rw [if_neg hc] at hn; exact ih n hn

theorem replaceAux_of_not_substr {old s : Str} (new : Str) (h : isSubstr old s = false) :
    replaceAux old new s 0 = s := by
  induction s with
  | nil => rfl
  | cons c rest ih =>
    simp only [isSubstr, Bool.or_eq_false_iff] at h
    simp only [replaceAux, h.1, Bool.false_eq_true, if_false]
    rw [ih h.2]

theorem foldl_replace_of_not_substr (vs : List (Str × Str)) (out : Str)
    (h : ∀ kv ∈ vs, isSubstr (braced kv.1) out = false) :
    vs.foldl (fun acc kv => replaceAll acc (braced kv.1) kv.2) out = out := by
  induction vs with
  | nil => rfl
  | cons kv vs ih =>
    rw [List.foldl_cons]
    have h1 : replaceAll out (braced kv.1) kv.2 = out :=
      replaceAux_of_not_substr kv.2 (h kv (List.mem_cons_self kv vs))
    rw [h1]
    exact ih fun x hx => h x (List.mem_cons_of_mem kv hx)

end EngManager

namespace EngManager

/-- C1: when some placeholder name found in the text is not a key of the
mapping, `substitute_variables` fails with the missing-variable error whose
message lists exactly the missing names, sorted and comma-joined, and no
(even partially) substituted string is returned. -/
theorem substitute_missing_error (p : ProcedureParser)
    (h : ¬ ∀ n ∈ findPlaceholders p.content, isKey p.vars n = true) :
    (∃ ms : List Str,
      substitute_variables p
        = Except.error (str "Missing required template variables: " ++ commaJoin ms)
      ∧ ms.Sorted (· ≤ ·) ∧ ms.Nodup
      ∧ (∀ n, n ∈ ms ↔ n ∈ findPlaceholders p.content ∧ isKey p.vars n = false))
    ∧ ∀ s, substitute_variables p ≠ Except.ok s := by
  push_neg at h
  obtain ⟨n, hn, hk⟩ := h
  have hk' : isKey p.vars n = false := by simpa using hk
  have hmem : n ∈ (findPlaceholders p.content).dedup.filter (fun m => !(isKey p.vars m)) := by
    simp [List.mem_filter, List.mem_dedup, hn, hk']
  have hne : (findPlaceholders p.content).dedup.filter (fun m => !(isKey p.vars m)) ≠ [] :=
    List.ne_nil_of_mem hmem
  have heq : substitute_variables p
      = Except.error (str "Missing required template variables: "
          ++ commaJoin (sortStrs ((findPlaceholders p.content).dedup.filter
            (fun m => !(isKey p.vars m))))) := by
    simp only [substitute_variables]
    rw [if_neg hne]
  refine ⟨⟨sortStrs ((findPlaceholders p.content).dedup.filter (fun m => !(isKey p.vars m))),
    heq, ?_, ?_, ?_⟩, ?_⟩
  · exact List.sorted_insertionSort (· ≤ ·) _
  · exact (List.perm_insertionSort (· ≤ ·) _).symm.nodup
      ((List.nodup_dedup _).filter _)
  · intro m
    rw [sortStrs, (List.perm_insertionSort (· ≤ ·) _).mem_iff]
    simp [List.mem_filter, List.mem_dedup]
  · intro s
    rw [heq]
    simp

/-- C1 witness: `"{A} and {B}"` with only `A` supplied fails with the
missing-variable error naming exactly `B`, and returns no string. -/
theorem substitute_missing_error_witness :
    (¬ ∀ n ∈ findPlaceholders (str "{A} and {B}"),
        isKey [(str "A", str "x")] n = true)
    ∧ ((∃ ms : List Str,
        substitute_variables ⟨str "{A} and {B}", [(str "A", str "x")]⟩
          = Except.error (str "Missing required template variables: " ++ commaJoin ms)
        ∧ ms.Sorted (· ≤ ·) ∧ ms.Nodup
        ∧ (∀ n, n ∈ ms ↔ n ∈ findPlaceholders (str "{A} and {B}")
            ∧ isKey [(str "A", str "x")] n = false))
      ∧ ∀ s, substitute_variables ⟨str "{A} and {B}", [(str "A", str "x")]⟩ ≠ Except.ok s) :=
  ⟨by decide, substitute_missing_error ⟨str "{A} and {B}", [(str "A", str "x")]⟩ (by decide)⟩

end EngManager

namespace EngManager

/-- C2 counterexample.  Part 1: with text `"{A}"` and mapping
`{A: "{A}"}` every found placeholder is a key, substitution succeeds, yet
the returned string still contains the resolvable placeholder `A` (a
substituted value may introduce new placeholder text, which is never
rescanned within the call but contradicts "no remaining resolvable
placeholders").  Part 2: the lowercase brace token `{name}` does NOT pass
through verbatim when `name` is a key: replacement iterates over all
supplied keys, not just uppercase-pattern names. -/
theorem substitute_resolvable_counterexample :
    (substitute_variables ⟨str "{A}", [(str "A", str "{A}")]⟩ = Except.ok (str "{A}")
      ∧ findPlaceholders (str "{A}") = [str "A"]
      ∧ isKey [(str "A", str "{A}")] (str "A") = true)
    ∧ (substitute_variables ⟨str "{name}", [(str "name", str "x")]⟩ = Except.ok (str "x")
      ∧ phName (str "name") = false
      ∧ str "x" ≠ str "{name}") := by
  refine ⟨⟨by decide, by decide, by decide⟩, ⟨by decide, by decide, by decide⟩⟩

/-- C2 amended: when every placeholder name found in the text is a key of
the mapping, `substitute_variables` succeeds and returns the text with,
for each (name, value) pair of the mapping in insertion order, every
literal occurrence of `{name}` replaced by the value; only
uppercase-pattern names are ever found (so non-matching brace tokens
impose no requirement on the mapping), but substituted values may
introduce new resolvable placeholders and brace tokens whose names are
keys are replaced whether or not they match the uppercase pattern. -/
theorem substitute_success_formula (p : ProcedureParser)
    (h : ∀ n ∈ findPlaceholders p.content, isKey p.vars n = true) :
    substitute_variables p = Except.ok (p.vars.foldl
      (fun acc kv => replaceAll acc (braced kv.1) kv.2) p.content)
    ∧ ∀ n ∈ findPlaceholders p.content, phName n = true := by
  have hnil : (findPlaceholders p.content).dedup.filter (fun m => !(isKey p.vars m)) = [] := by
    rw [List.filter_eq_nil_iff]
    intro a ha
    simp [h a (List.mem_dedup.mp ha)]
  constructor
  · simp only [substitute_variables]
    rw [if_pos hnil]
  · exact fun n hn => findPlaceholders_phName _ n hn

/-- C2 witness: `"Hello {NAME}"` with `NAME ↦ World` succeeds with the
replacement formula, which evaluates to `"Hello World"`. -/
theorem substitute_success_formula_witness :
    substitute_variables ⟨str "Hello {NAME}", [(str "NAME", str "World")]⟩
      = Except.ok (str "Hello World") :=
  ((substitute_success_formula ⟨str "Hello {NAME}", [(str "NAME", str "World")]⟩
    (by decide)).1).trans (by decide)

/-- C8 counterexample: the output `"x{a}"` of substituting text `"{a}"`
under the mapping `{a: "x{a}"}` contains no placeholder (lowercase `{a}`
does not match the uppercase pattern), yet re-running substitution on that
output with the same mapping is not a no-op: it returns `"xx{a}"`. -/
theorem substitute_idempotence_counterexample :
    substitute_variables ⟨str "{a}", [(str "a", str "x{a}")]⟩ = Except.ok (str "x{a}")
    ∧ findPlaceholders (str "x{a}") = []
    ∧ substitute_variables ⟨str "x{a}", [(str "a", str "x{a}")]⟩ = Except.ok (str "xx{a}")
    ∧ str "xx{a}" ≠ str "x{a}" := by
  refine ⟨by decide, by decide, by decide, by decide⟩

/-- C8 amended: `"Hello {NAME}"` with `NAME ↦ World` yields exactly
`"Hello World"`; and substitution is a no-op returning the identical
string on every string that contains no placeholder AND no occurrence of
`{name}` for a mapping key `name` (the extra condition the counterexample
forces: an output may contain `{name}` brace tokens for keys even when it
contains no placeholder, and those are substituted again). -/
theorem substitute_clean_noop :
    substitute_variables ⟨str "Hello {NAME}", [(str "NAME", str "World")]⟩
      = Except.ok (str "Hello World")
    ∧ ∀ (out : Str) (vs : List (Str × Str)),
        findPlaceholders out = [] →
        (∀ kv ∈ vs, isSubstr (braced kv.1) out = false) →
        substitute_variables ⟨out, vs⟩ = Except.ok out := by
  refine ⟨by decide, fun out vs hf hsub => ?_⟩
  have hnil : (findPlaceholders out).dedup.filter (fun m => !(isKey vs m)) = [] := by
    rw [hf]; rfl
  have : substitute_variables ⟨out, vs⟩ = Except.ok (vs.foldl
      (fun acc kv => replaceAll acc (braced kv.1) kv.2) out) := by
    simp only [substitute_variables]
    rw [if_pos hnil]
  rw [this, foldl_replace_of_not_substr vs out hsub]

/-- C8 witness: re-running substitution on the clean output
`"Hello World"` with the same mapping returns it unchanged. -/
theorem substitute_clean_noop_witness :
    substitute_variables ⟨str "Hello World", [(str "NAME", str "World")]⟩
      = Except.ok (str "Hello World") :=
  substitute_clean_noop.2 (str "Hello World") [(str "NAME", str "World")]
    (by decide) (by decide)

end EngManager

namespace EngManager

theorem orderedInsert_filter_key (x : Nat × Str × Str) (m : List (Nat × Str × Str)) (k : Nat) :
    (List.orderedInsert stepLe x m).filter (fun s => s.1 == k)
      = if x.1 = k then x :: m.filter (fun s => s.1 == k)
        else m.filter (fun s => s.1 == k) := by
  induction m with
  | nil =>
    by_cases hx : x.1 = k <;> simp [List.orderedInsert, hx]
  | cons y ys ih =>
    by_cases hr : stepLe x y
    · by_cases hx : x.1 = k <;> simp [List.orderedInsert, hr, hx]
    · have hyx : y.1 < x.1 := Nat.lt_of_not_le hr
      by_cases hy : y.1 = k
      · have hx : ¬ x.1 = k := by omega
        simp [List.orderedInsert, hr, hx, hy, ih]
      · by_cases hx : x.1 = k <;> simp [List.orderedInsert, hr, hx, hy, ih]

theorem insertionSort_filter_key (l : List (Nat × Str × Str)) (k : Nat) :
    (List.insertionSort stepLe l).filter (fun s => s.1 == k)
      = l.filter (fun s => s.1 == k) := by
  induction l with
  | nil => rfl
  | cons x l ih =>
    rw [List.insertionSort, orderedInsert_filter_key]
    by_cases hx : x.1 = k <;> simp [hx, ih]

/-- C5: `extract_steps` is the stable ascending-by-number sort of the step
entries derived from the section mapping: it is sorted non-decreasing by
step number, it is a permutation of the entries (every matching section
appears exactly once, duplicate numbers all appear), and among entries
with any fixed number `k` the order is exactly the section-mapping
iteration order (stability). -/
theorem extract_steps_sorted_stable (p : ProcedureParser) :
    sectionSteps p = (extract_sections p).filterMap
      (fun kv => (stepMatch kv.1).map (fun nt => (nt.1, nt.2, kv.2)))
    ∧ List.Sorted stepLe (extract_steps p)
    ∧ (extract_steps p).Perm (sectionSteps p)
    ∧ ∀ k : Nat, (extract_steps p).filter (fun s => s.1 == k)
        = (sectionSteps p).filter (fun s => s.1 == k) :=
  ⟨rfl, List.sorted_insertionSort stepLe _, List.perm_insertionSort stepLe _,
    fun k => insertionSort_filter_key _ k⟩

end EngManager

namespace EngManager

theorem space_ne_hash {c : Char} (h : pyIsSpace c = true) : (c == '#') = false := by
  by_contra hne
  rw [Bool.not_eq_false, beq_iff_eq] at hne
  subst hne
  exact absurd h (by decide)

theorem takeWhile_hash_replicate (k : Nat) {c : Char} (r : Str) (hc : (c == '#') = false) :
    (List.replicate k '#' ++ c :: r).takeWhile (fun x => x == '#') = List.replicate k '#' := by
  induction k with
  | zero => simp [List.takeWhile, hc]
  | succ n ih => simp [List.replicate_succ, List.takeWhile, ih]

theorem headMatch_replicate (k : Nat) (c : Char) (r : Str)
    (h1 : 1 ≤ k) (h6 : k ≤ 6) (hs : pyIsSpace c = true) :
    headMatch (List.replicate k '#' ++ c :: r)
      = if r.isEmpty then none else some (strip (c :: r)) := by
  have hc : (c == '#') = false := space_ne_hash hs
  have htw := takeWhile_hash_replicate k r hc
  have hdrop : (List.replicate k '#' ++ c :: r).drop (List.replicate k '#').length = c :: r :=
    List.drop_left _ _
  simp only [headMatch, htw, hdrop]
  cases r with
  | nil => rfl
  | cons d r' =>
    simp [h1, h6, hs]

theorem sectionsAux_no_heading (ls : List Str) (secs : List (Str × Str))
    (h : ∀ l ∈ ls, headMatch l = none) : sectionsAux ls [] [] secs = secs := by
  induction ls with
  | nil => rfl
  | cons l rest ih =>
    have hl : headMatch l = none := h l (List.mem_cons_self l rest)
    simp only [sectionsAux, hl, if_pos rfl]
    exact ih fun x hx => h x (List.mem_cons_of_mem l hx)

theorem sectionsAux_skip_prefix (pre ls : List Str)
    (h : ∀ l ∈ pre, headMatch l = none) :
    sectionsAux (pre ++ ls) [] [] [] = sectionsAux ls [] [] [] := by
  induction pre with
  | nil => rfl
  | cons l pre' ih =>
    have hl : headMatch l = none := h l (List.mem_cons_self l pre')
    simp only [List.cons_append, sectionsAux, hl, if_pos rfl]
    exact ih fun x hx => h x (List.mem_cons_of_mem l hx)

/-- C3: (1) a newline-free line is treated as a heading iff it consists of
1 to 6 `'#'` characters, then at least one whitespace character, then at
least one further character of text; (2) the heading level is discarded —
the same tail after any admissible number of hashes produces the same
parse; (3) lines before the first heading belong to no section; (4) a
text with no heading lines yields an empty section mapping. -/
theorem heading_characterization :
    (∀ line : Str, '\n' ∉ line →
      ((headMatch line).isSome ↔ ∃ (k : Nat) (rest : Str), 1 ≤ k ∧ k ≤ 6
        ∧ line = List.replicate k '#' ++ rest
        ∧ ∃ (c : Char) (r : Str), rest = c :: r ∧ pyIsSpace c = true ∧ r ≠ []))
    ∧ (∀ (k₁ k₂ : Nat) (c : Char) (r : Str), 1 ≤ k₁ → k₁ ≤ 6 → 1 ≤ k₂ → k₂ ≤ 6 →
        pyIsSpace c = true →
        headMatch (List.replicate k₁ '#' ++ c :: r)
          = headMatch (List.replicate k₂ '#' ++ c :: r))
    ∧ (∀ (pre ls : List Str), (∀ l ∈ pre, headMatch l = none) →
        sectionsAux (pre ++ ls) [] [] [] = sectionsAux ls [] [] [])
    ∧ (∀ p : ProcedureParser, (∀ l ∈ splitLines p.content, headMatch l = none) →
        extract_sections p = []) := by
  refine ⟨fun line _ => ⟨fun h => ?_, fun h => ?_⟩,
    fun k₁ k₂ c r h1 h6 h1' h6' hs => ?_,
    sectionsAux_skip_prefix,
    fun p h => sectionsAux_no_heading _ _ h⟩
  · -- forward: extract the shape from a successful match
    cases hrest : line.drop (line.takeWhile (fun x => x == '#')).length with
    | nil =>
      have hM : headMatch line = none := by simp only [headMatch, hrest]
      rw [hM] at h; simp at h
    | cons c rest' =>
      cases rest' with
      | nil =>
        have hM : headMatch line = none := by simp only [headMatch, hrest]
        rw [hM] at h; simp at h
      | cons d r' =>
        have hM : headMatch line
            = if (decide (1 ≤ (line.takeWhile (fun x => x == '#')).length)
                && decide ((line.takeWhile (fun x => x == '#')).length ≤ 6)
                && pyIsSpace c) = true
              then some (strip (c :: d :: r')) else none := by
          simp only [headMatch, hrest]
        rw [hM] at h
        by_cases hcond : (decide (1 ≤ (line.takeWhile (fun x => x == '#')).length)
            && decide ((line.takeWhile (fun x => x == '#')).length ≤ 6)
            && pyIsSpace c) = true
        · have htw : line.takeWhile (fun x => x == '#')
              = List.replicate (line.takeWhile (fun x => x == '#')).length '#' := by
            rw [List.eq_replicate_iff]
            exact ⟨rfl, fun b hb => by
              have := List.mem_takeWhile_imp hb
              exact beq_iff_eq.mp this⟩
          have hline : line = line.takeWhile (fun x => x == '#') ++ (c :: d :: r') := by
            conv_lhs => rw [← List.take_append_drop
              (line.takeWhile (fun x => x == '#')).length line]
            rw [← (List.prefix_iff_eq_take).mp (List.takeWhile_prefix _), hrest]
          simp only [Bool.and_eq_true, decide_eq_true_eq] at hcond
          exact ⟨(line.takeWhile (fun x => x == '#')).length, c :: d :: r',
            hcond.1.1, hcond.1.2, by rw [← htw] at *; exact hline,
            c, d :: r', rfl, hcond.2, by simp⟩
        · rw [if_neg hcond] at h; simp at h
  · -- backward: the spec shape always matches
    obtain ⟨k, rest, h1, h6, hline, c, r, hrest, hs, hr⟩ := h
    subst hrest; subst hline
    rw [headMatch_replicate k c r h1 h6 hs]
    cases r with
    | nil => exact absurd rfl hr
    | cons d r' => simp
  · rw [headMatch_replicate k₁ c r h1 h6 hs, headMatch_replicate k₂ c r h1' h6' hs]

/-- C3 witness: the heading level is discarded (`"# T"` and `"###### T"`
parse identically) and a heading-free text yields an empty mapping. -/
theorem heading_characterization_witness :
    headMatch (List.replicate 1 '#' ++ ' ' :: str "T")
      = headMatch (List.replicate 6 '#' ++ ' ' :: str "T")
    ∧ extract_sections ⟨str "hello\nworld", []⟩ = [] :=
  ⟨heading_characterization.2.1 1 6 ' ' (str "T")
      (by decide) (by decide) (by decide) (by decide) (by decide),
    heading_characterization.2.2.2 ⟨str "hello\nworld", []⟩ (by decide)⟩

end EngManager

namespace EngManager

/-! ### Python dict semantics: update-in-place, last assignment wins -/

theorem find?_map_update_ne (d : List (Str × Str)) (k v t : Str) (hne : t ≠ k) :
    (d.map (fun kv => if kv.1 = k then (k, v) else kv)).find? (fun kv => kv.1 == t)
      = d.find? (fun kv => kv.1 == t) := by
  induction d with
  | nil => rfl
  | cons b d ih =>
    simp only [List.map_cons, List.find?_cons]
    by_cases hb : b.1 = k
    · have h1 : ((if b.1 = k then (k, v) else b).1 == t) = false := by
        rw [if_pos hb]; exact beq_eq_false_iff_ne.mpr (Ne.symm hne)
      have h2 : (b.1 == t) = false := by
        rw [hb]; exact beq_eq_false_iff_ne.mpr (Ne.symm hne)
      rw [h1, h2]
      exact ih
    · rw [if_neg hb]
      cases hpb : (b.1 == t) with
      | true => rfl
      | false => exact ih

theorem find?_map_update_eq (d : List (Str × Str)) (k v : Str)
    (hany : d.any (fun kv => kv.1 = k) = true) :
    (d.map (fun kv => if kv.1 = k then (k, v) else kv)).find? (fun kv => kv.1 == k)
      = some (k, v) := by
  induction d with
  | nil => simp at hany
  | cons b d ih =>
    simp only [List.map_cons, List.find?_cons]
    by_cases hb : b.1 = k
    · have h1 : ((if b.1 = k then (k, v) else b).1 == k) = true := by
        rw [if_pos hb]; exact beq_self_eq_true k
      rw [h1, if_pos hb]
    · have h2 : (b.1 == k) = false := beq_eq_false_iff_ne.mpr hb
      rw [if_neg hb, h2]
      refine ih ?_
      rw [List.any_cons] at hany
      simpa [hb] using hany

theorem find?_append_single_eq (d : List (Str × Str)) (k v : Str)
    (hany : d.any (fun kv => kv.1 = k) = false) :
    (d ++ [(k, v)]).find? (fun kv => kv.1 == k) = some (k, v) := by
  induction d with
  | nil =>
    simp only [List.nil_append, List.find?_cons]
    have h1 : (((k, v) : Str × Str).1 == k) = true := beq_self_eq_true k
    rw [h1]
  | cons b d ih =>
    rw [List.any_cons, Bool.or_eq_false_iff] at hany
    have hb : b.1 ≠ k := by simpa using hany.1
    have h2 : (b.1 == k) = false := beq_eq_false_iff_ne.mpr hb
    simp only [List.cons_append, List.find?_cons]
    rw [h2]
    exact ih hany.2

theorem find?_append_single_ne (d : List (Str × Str)) (k v t : Str) (hne : t ≠ k) :
    (d ++ [(k, v)]).find? (fun kv => kv.1 == t) = d.find? (fun kv => kv.1 == t) := by
  rw [List.find?_append]
  have h1 : ([(k, v)] : List (Str × Str)).find? (fun kv => kv.1 == t) = none := by
    simp only [List.find?_cons]
    have : (((k, v) : Str × Str).1 == t) = false := beq_eq_false_iff_ne.mpr (Ne.symm hne)
    rw [this]
    rfl
  rw [h1, Option.or_none]

theorem find?_dictInsert (d : List (Str × Str)) (k v t : Str) :
    ((dictInsert k v d).find? (fun kv => kv.1 == t)).map (fun kv => kv.2)
      = if t = k then some v
        else (d.find? (fun kv => kv.1 == t)).map (fun kv => kv.2) := by
  by_cases hany : d.any (fun kv => kv.1 = k) = true
  · rw [dictInsert, if_pos hany]
    by_cases ht : t = k
    · subst ht
      rw [find?_map_update_eq d t v hany, if_pos rfl]
      rfl
    · rw [find?_map_update_ne d k v t ht, if_neg ht]
  · rw [dictInsert, if_neg hany]
    by_cases ht : t = k
    · subst ht
      rw [find?_append_single_eq d t v (Bool.not_eq_true _ ▸ hany), if_pos rfl]
      rfl
    · rw [find?_append_single_ne d k v t ht, if_neg ht]

theorem lookup_dictFold (xs : List (Str × Str)) :
    ∀ (d : List (Str × Str)) (t : Str),
    ((dictFold d xs).find? (fun kv => kv.1 == t)).map (fun kv => kv.2)
      = ((xs.reverse.find? (fun kv => kv.1 == t)).map (fun kv => kv.2)).or
          ((d.find? (fun kv => kv.1 == t)).map (fun kv => kv.2)) := by
  induction xs with
  | nil => intro d t; rfl
  | cons x xs ih =>
    intro d t
    have hstep : dictFold d (x :: xs) = dictFold (dictInsert x.1 x.2 d) xs := rfl
    rw [hstep, ih, List.reverse_cons, List.find?_append, find?_dictInsert]
    cases hfind : xs.reverse.find? (fun kv => kv.1 == t) with
    | some f => rfl
    | none =>
      by_cases ht : t = x.1
      · subst ht
        have hx : ([x] : List (Str × Str)).find? (fun kv => kv.1 == x.1) = some x := by
          simp only [List.find?_cons]
          rw [beq_self_eq_true x.1]
        rw [hx, if_pos rfl]
        rfl
      · have hx : ([x] : List (Str × Str)).find? (fun kv => kv.1 == t) = none := by
          simp only [List.find?_cons]
          have : (x.1 == t) = false := beq_eq_false_iff_ne.mpr (Ne.symm ht)
          rw [this]
          rfl
        rw [hx, if_neg ht]
        rfl

end EngManager

namespace EngManager

theorem nodup_keys_dictInsert (k v : Str) (d : List (Str × Str))
    (h : (d.map Prod.fst).Nodup) : ((dictInsert k v d).map Prod.fst).Nodup := by
  by_cases hany : d.any (fun kv => kv.1 = k) = true
  · rw [dictInsert, if_pos hany]
    have hkeys : (d.map (fun kv => if kv.1 = k then (k, v) else kv)).map Prod.fst
        = d.map Prod.fst := by
      rw [List.map_map]
      refine List.map_congr_left ?_
      intro a _
      by_cases ha : a.1 = k
      · simp [Function.comp, ha]
      · simp [Function.comp, ha]
    rw [hkeys]
    exact h
  · rw [dictInsert, if_neg hany, List.map_append]
    rw [List.nodup_append]
    refine ⟨h, by simp, ?_⟩
    intro a ha hmem
    simp only [List.map_cons, List.map_nil, List.mem_singleton] at hmem
    subst hmem
    obtain ⟨kv, hkv, hfst⟩ := List.mem_map.mp ha
    rw [Bool.not_eq_true, List.any_eq_false] at hany
    exact absurd (by simpa using hfst) (by simpa using hany kv hkv)

theorem nodup_keys_dictFold (xs : List (Str × Str)) :
    ∀ d : List (Str × Str), (d.map Prod.fst).Nodup → ((dictFold d xs).map Prod.fst).Nodup := by
  induction xs with
  | nil => intro d h; exact h
  | cons x xs ih =>
    intro d h
    exact ih (dictInsert x.1 x.2 d) (nodup_keys_dictInsert x.1 x.2 d h)

theorem sectionsAux_eq_dictFold (ls : List Str) :
    ∀ (cur : Str) (acc : List Str) (secs : List (Str × Str)),
    sectionsAux ls cur acc secs = dictFold secs ((rawAux ls cur acc).map stripSec) := by
  induction ls with
  | nil =>
    intro cur acc secs
    by_cases hc : cur = []
    · simp only [sectionsAux, rawAux, if_pos hc]
      rfl
    · simp only [sectionsAux, rawAux, if_neg hc]
      rfl
  | cons line rest ih =>
    intro cur acc secs
    cases hm : headMatch line with
    | some t =>
      simp only [sectionsAux, rawAux, hm]
      by_cases hc : cur = []
      · simp only [if_pos hc]
        rw [ih]
        rfl
      · simp only [if_neg hc]
        rw [ih, List.singleton_append, List.map_cons]
        rfl
    | none =>
      simp only [sectionsAux, rawAux, hm]
      exact ih _ _ _

theorem extract_sections_eq_dictFold (p : ProcedureParser) :
    extract_sections p = dictFold [] ((rawSections p).map stripSec) :=
  sectionsAux_eq_dictFold _ _ _ _

/-- C4: the section mapping never repeats a title (its key list is
nodup), and the value stored under any title is exactly the body of the
LAST heading in document order that produced this title: a later section
with the same exact title silently overwrites an earlier one. -/
theorem sections_last_heading_wins (p : ProcedureParser) :
    ((extract_sections p).map Prod.fst).Nodup
    ∧ ∀ t, get_section p t = lastAssoc ((rawSections p).map stripSec) t := by
  constructor
  · rw [extract_sections_eq_dictFold]
    exact nodup_keys_dictFold _ [] (by simp)
  · intro t
    simp only [get_section, extract_sections_eq_dictFold, lookup_dictFold, lastAssoc]
    simp only [List.find?_nil, Option.map_none', Option.or_none]

end EngManager

namespace EngManager

theorem rawAux_flatten (ls : List Str) :
    ∀ (cur : Str) (acc : List Str), cur ≠ [] →
    (∀ l ∈ ls, headMatch l ≠ some []) →
    ((rawAux ls cur acc).map Prod.snd).flatten
      = acc ++ ls.filter (fun l => (headMatch l).isNone) := by
  induction ls with
  | nil =>
    intro cur acc hc _
    simp [rawAux, if_neg hc]
  | cons line rest ih =>
    intro cur acc hc hff
    cases hm : headMatch line with
    | some t =>
      have ht : t ≠ [] := fun h => (hff line (List.mem_cons_self _ _)) (h ▸ hm)
      have hfalse : (headMatch line).isNone = false := by rw [hm]; rfl
      simp only [rawAux, hm, if_neg hc]
      rw [List.map_append, List.flatten_append,
        ih t [] ht (fun x hx => hff x (List.mem_cons_of_mem _ hx)),
        List.filter_cons]
      simp [hfalse]
    | none =>
      have htrue : (headMatch line).isNone = true := by rw [hm]; rfl
      simp only [rawAux, hm, if_neg hc]
      rw [ih cur (acc ++ [line]) hc (fun x hx => hff x (List.mem_cons_of_mem _ hx)),
        List.filter_cons]
      simp [htrue]

theorem rawAux_flatten_start (ls : List Str)
    (hff : ∀ l ∈ ls, headMatch l ≠ some []) :
    ((rawAux ls [] []).map Prod.snd).flatten
      = (ls.dropWhile (fun l => (headMatch l).isNone)).filter
          (fun l => (headMatch l).isNone) := by
  induction ls with
  | nil => rfl
  | cons line rest ih =>
    cases hm : headMatch line with
    | some t =>
      have ht : t ≠ [] := fun h => (hff line (List.mem_cons_self _ _)) (h ▸ hm)
      have hfalse : (headMatch line).isNone = false := by rw [hm]; rfl
      have hstep : rawAux (line :: rest) [] [] = rawAux rest t [] := by
        simp [rawAux, hm]
      rw [hstep,
        rawAux_flatten rest t [] ht (fun x hx => hff x (List.mem_cons_of_mem _ hx)),
        List.dropWhile_cons]
      simp [hfalse]
    | none =>
      have htrue : (headMatch line).isNone = true := by rw [hm]; rfl
      have hstep : rawAux (line :: rest) [] [] = rawAux rest [] [] := by
        simp [rawAux, hm]
      rw [hstep, List.dropWhile_cons]
      simp only [htrue, if_true]
      exact ih (fun x hx => hff x (List.mem_cons_of_mem _ hx))

theorem dictFold_of_nodup (xs : List (Str × Str)) :
    ∀ d : List (Str × Str), (∀ k ∈ xs.map Prod.fst, k ∉ d.map Prod.fst) →
    (xs.map Prod.fst).Nodup → dictFold d xs = d ++ xs := by
  induction xs with
  | nil => intro d _ _; simp [dictFold]
  | cons x xs ih =>
    intro d hfresh hnodup
    have hx : x.1 ∉ d.map Prod.fst := hfresh x.1 (by simp)
    have hany : d.any (fun kv => kv.1 = x.1) = false := by
      rw [List.any_eq_false]
      intro kv hkv
      simp only [decide_eq_true_eq]
      exact fun he => hx (List.mem_map.mpr ⟨kv, hkv, he⟩)
    have hstep : dictFold d (x :: xs) = dictFold (d ++ [x]) xs := by
      show dictFold (dictInsert x.1 x.2 d) xs = _
      rw [dictInsert, if_neg (by simp [hany])]
    rw [List.map_cons, List.nodup_cons] at hnodup
    have hfresh' : ∀ k ∈ xs.map Prod.fst, k ∉ (d ++ [x]).map Prod.fst := by
      intro k hk
      rw [List.map_append, List.mem_append]
      rintro (h | h)
      · exact hfresh k (by simp [hk]) h
      · simp only [List.map_cons, List.map_nil, List.mem_singleton] at h
        exact hnodup.1 (h ▸ hk)
    rw [hstep, ih (d ++ [x]) hfresh' hnodup.2, List.append_assoc, List.singleton_append]

/-- C7 amended: for a text in which every heading has a non-empty trimmed
title and no two headings share a title, the raw between-heading line
segments, concatenated in document order, reconstruct exactly the original
lines minus the lines before the first heading and minus the heading lines
(no duplication, no loss); `extract_sections` returns exactly those
segments in document order with each body the whitespace-strip of its
segment's join — so concatenating the BODIES reconstructs that view only
up to the per-section strip (leading/trailing blank lines and edge
whitespace of each body are dropped), and with duplicate titles the
earlier section's content is lost entirely. -/
theorem sections_reconstruction (p : ProcedureParser)
    (h0 : ∀ l ∈ splitLines p.content, headMatch l ≠ some [])
    (h1 : ((rawSections p).map Prod.fst).Nodup) :
    extract_sections p = (rawSections p).map stripSec
    ∧ ((rawSections p).map Prod.snd).flatten = specRemainder p.content := by
  constructor
  · rw [extract_sections_eq_dictFold]
    have hkeys : ((rawSections p).map stripSec).map Prod.fst
        = (rawSections p).map Prod.fst := by
      rw [List.map_map]
      exact List.map_congr_left (fun a _ => rfl)
    rw [dictFold_of_nodup _ [] (by simp) (by rw [hkeys]; exact h1)]
    simp
  · exact rawAux_flatten_start _ h0

/-- C7 witness: on a two-section document with distinct non-empty titles,
the section list is exactly the stripped document-order segments and the
segments concatenate to the heading-free remainder. -/
theorem sections_reconstruction_witness :
    extract_sections ⟨str "# A\nx\n# B\ny", []⟩
      = (rawSections ⟨str "# A\nx\n# B\ny", []⟩).map stripSec
    ∧ ((rawSections ⟨str "# A\nx\n# B\ny", []⟩).map Prod.snd).flatten
      = specRemainder (str "# A\nx\n# B\ny") :=
  sections_reconstruction ⟨str "# A\nx\n# B\ny", []⟩ (by decide) (by decide)

/-- C7 counterexample to the claim as stated, at three concrete inputs:
(i) with duplicate titles the earlier body `"x"` is lost, so the
concatenated bodies miss a line of the remainder; (ii) a blank line
inside a section is stripped from its body, so lines-equality fails even
with distinct titles; (iii) a heading whose title strips to empty drops
both itself and its following lines. -/
theorem sections_reconstruction_counterexample :
    (extract_sections ⟨str "# A\nx\n# A\ny", []⟩ = [(str "A", str "y")]
      ∧ specRemainder (str "# A\nx\n# A\ny") = [str "x", str "y"]
      ∧ splitLines (joinLines ((extract_sections ⟨str "# A\nx\n# A\ny", []⟩).map
          Prod.snd)) = [str "y"]
      ∧ [str "y"] ≠ [str "x", str "y"])
    ∧ (splitLines (joinLines ((extract_sections ⟨str "# A\nx\n\n# B\ny", []⟩).map
          Prod.snd)) = [str "x", str "y"]
      ∧ specRemainder (str "# A\nx\n\n# B\ny") = [str "x", [], str "y"]
      ∧ ([str "x", str "y"] : List Str) ≠ [str "x", [], str "y"])
    ∧ (extract_sections ⟨str "#  \nx", []⟩ = []
      ∧ specRemainder (str "#  \nx") = [str "x"]) := by
  refine ⟨⟨by decide, by decide, by decide, by decide⟩,
    ⟨by decide, by decide, by decide⟩, by decide, by decide⟩

end EngManager
